import Mathlib

/-!
Shallow embedding of the CHIP-8 interpreter core from `src/processor/mod.rs`
(struct `Processor` and its `impl` block), together with proofs checking the
specification's claims about it.

Modelling conventions:
* Rust machine integers (`u8`, `u16`, `usize`) are modelled as `Nat`, with an
  explicit `% 256` (resp. masking) exactly where the Rust code wraps.
* Rust's fixed-size arrays are modelled as `Array`; an out-of-bounds index
  (a Rust panic) is modelled by returning `none`, so every fallible operation
  lives in `Option`.
* `rand::thread_rng().gen::<u8>()` is modelled by an oracle argument `rnd`
  supplied to `tick`/`execute_once` (only its low byte is used).
-/

namespace Chip8

/-- Read `a[i]` as in Rust: `some` value when in bounds, `none` (panic) otherwise. -/
def aget (a : Array α) (i : Nat) : Option α := a[i]?

/-- Write `a[i] = v` as in Rust: updated array when in bounds, `none` (panic) otherwise. -/
def aset (a : Array α) (i : Nat) (v : α) : Option (Array α) :=
  if i < a.size then some (a.setD i v) else none

/-- The interpreter state, field for field the Rust `struct Processor`. -/
structure Processor where
  /-- 4096 bytes of memory. -/
  memory : Array Nat
  /-- The 16 8-bit registers V0..VF. -/
  registers : Array Nat
  /-- The 48-slot call stack of return addresses. -/
  stack : Array Nat
  /-- Stack pointer (next free slot). -/
  sp : Nat
  delay_timer : Nat
  sound_timer : Nat
  /-- 32 rows of 64 pixel cells. -/
  vram : Array (Array Nat)
  /-- Key-wait flag. -/
  keypresswait : Bool
  /-- Target register of the key wait. -/
  key : Nat
  keypad : Array Bool
  /-- Program counter. -/
  pc : Nat
  /-- Index register. -/
  i : Nat
  vram_changed : Bool
deriving DecidableEq

/-- Snapshot returned by `tick` (the Rust `ProcessorState`, from `src/output`,
whose shape is fixed by its construction inside `tick`). -/
structure ProcessorState where
  vram : Array (Array Nat)
  vram_changed : Bool
  beep : Bool
deriving DecidableEq

/-- Modelled from the spec: the contents of `crate::font::FONT_SET` (the `font`
module is not among the provided sources). The spec fixes only its layout —
16 glyphs of 5 bytes each, 80 bytes total, written to memory `[0, 80)` — and no
claim below depends on the glyph byte values, so they are taken as `0` here. -/
def FONT_SET : List Nat := List.replicate 80 0

/-- The `let mut mem` local of `Processor::new()`: a zeroed 4096-byte array
with the font table copied to its first `FONT_SET.len()` bytes. -/
def initMemory : Array Nat :=
  (List.range FONT_SET.length).foldl
    (fun m x => m.setD x (FONT_SET.getD x 0)) (Array.mkArray 4096 0)

/-- `Processor::new()`. -/
def new : Processor where
  memory := initMemory
  registers := Array.mkArray 16 0
  stack := Array.mkArray 48 0
  sp := 0
  delay_timer := 0
  sound_timer := 0
  vram := Array.mkArray 32 (Array.mkArray 64 0)
  keypresswait := false
  key := 0
  keypad := Array.mkArray 16 false
  pc := 0x200
  i := 0
  vram_changed := false

/-- `Processor::load_program`: copies `bytes[i]` to `memory[i + 0x200]` with no
bounds check; the out-of-bounds write that Rust panics on is modelled by `none`. -/
def load_program (s : Processor) (bytes : List Nat) : Option Processor := do
  let mem ← (List.range bytes.length).foldlM
    (fun m j => aset m (j + 0x200) (bytes.getD j 0)) s.memory
  pure { s with memory := mem }

/-- `Processor::get_opcode`: big-endian 16-bit fetch at `pc`. -/
def get_opcode (s : Processor) : Option Nat := do
  let hi ← aget s.memory s.pc
  let lo ← aget s.memory (s.pc + 1)
  pure ((hi <<< 8) ||| lo)

def pc_next (s : Processor) : Processor := { s with pc := s.pc + 2 }

def pc_jump (s : Processor) (addr : Nat) : Processor := { s with pc := addr }

def pc_skip (s : Processor) : Processor := { s with pc := s.pc + 4 }

/-- `op00e0`: clear the 32×64 vram (the Rust double loop writes `0` to every
cell of the statically sized `[[u8; 64]; 32]`). -/
def op00e0 (s : Processor) : Processor :=
  pc_next { s with vram := Array.mkArray 32 (Array.mkArray 64 0), vram_changed := true }

/-- `op00ee`: return. `self.sp -= 1` underflows (panics) when `sp = 0`. -/
def op00ee (s : Processor) : Option Processor :=
  if s.sp = 0 then none
  else do
    let sp2 := s.sp - 1
    let addr ← aget s.stack sp2
    pure (pc_jump { s with sp := sp2 } addr)

def op1nnn (s : Processor) (nnn : Nat) : Processor := pc_jump s nnn

/-- `op2nnn`: call. Pushes `pc + 2`, increments `sp`, jumps. -/
def op2nnn (s : Processor) (nnn : Nat) : Option Processor := do
  let st ← aset s.stack s.sp (s.pc + 2)
  pure (pc_jump { s with stack := st, sp := s.sp + 1 } nnn)

def op3xkk (s : Processor) (x kk : Nat) : Option Processor := do
  let vx ← aget s.registers x
  pure (if vx = kk then pc_skip s else pc_next s)

def op4xkk (s : Processor) (x kk : Nat) : Option Processor := do
  let vx ← aget s.registers x
  pure (if vx ≠ kk then pc_skip s else pc_next s)

/-- `op5xy0` as written in the source: skips when the registers are NOT equal. -/
def op5xy0 (s : Processor) (x y : Nat) : Option Processor := do
  let vx ← aget s.registers x
  let vy ← aget s.registers y
  pure (if vx ≠ vy then pc_skip s else pc_next s)

def op6xkk (s : Processor) (x kk : Nat) : Option Processor := do
  let regs ← aset s.registers x kk
  pure (pc_next { s with registers := regs })

/-- `op7xkk`: `overflowing_add`, storing the wrapped sum in `Vx` and the
overflow flag in `VF` (in that order). -/
def op7xkk (s : Processor) (x kk : Nat) : Option Processor := do
  let vx ← aget s.registers x
  let regs ← aset s.registers x ((vx + kk) % 256)
  let regs2 ← aset regs 0xf (if vx + kk > 0xff then 1 else 0)
  pure (pc_next { s with registers := regs2 })

def op8xy0 (s : Processor) (x y : Nat) : Option Processor := do
  let vy ← aget s.registers y
  let regs ← aset s.registers x vy
  pure (pc_next { s with registers := regs })

def op8xy1 (s : Processor) (x y : Nat) : Option Processor := do
  let vx ← aget s.registers x
  let vy ← aget s.registers y
  let regs ← aset s.registers x (vx ||| vy)
  pure (pc_next { s with registers := regs })

def op8xy2 (s : Processor) (x y : Nat) : Option Processor := do
  let vx ← aget s.registers x
  let vy ← aget s.registers y
  let regs ← aset s.registers x (vx &&& vy)
  pure (pc_next { s with registers := regs })

def op8xy3 (s : Processor) (x y : Nat) : Option Processor := do
  let vx ← aget s.registers x
  let vy ← aget s.registers y
  let regs ← aset s.registers x (vx ^^^ vy)
  pure (pc_next { s with registers := regs })

/-- `op8xy4`: widening add; `VF := 1` iff the 16-bit sum exceeds `0xff`. -/
def op8xy4 (s : Processor) (x y : Nat) : Option Processor := do
  let vx ← aget s.registers x
  let vy ← aget s.registers y
  let result := vx + vy
  let regs ← aset s.registers x (result % 256)
  let regs2 ← aset regs 0xf (if result > 0xff then 1 else 0)
  pure (pc_next { s with registers := regs2 })

/-- `op8xy5`: `VF` is written first from the comparison, then `Vx` is set to the
wrapping difference of the registers as they read AFTER that `VF` write. -/
def op8xy5 (s : Processor) (x y : Nat) : Option Processor := do
  let vx ← aget s.registers x
  let vy ← aget s.registers y
  let regs ← aset s.registers 0xf (if vx > vy then 1 else 0)
  let vx2 ← aget regs x
  let vy2 ← aget regs y
  let regs2 ← aset regs x ((vx2 + 256 - vy2 % 256) % 256)
  pure (pc_next { s with registers := regs2 })

def op8x06 (s : Processor) (x : Nat) : Option Processor := do
  let vx ← aget s.registers x
  let regs ← aset s.registers 0xf (vx &&& 1)
  let vx2 ← aget regs x
  let regs2 ← aset regs x (vx2 >>> 1)
  pure (pc_next { s with registers := regs2 })

/-- `op8xy7`: reverse subtract, same write order caveats as `op8xy5`. -/
def op8xy7 (s : Processor) (x y : Nat) : Option Processor := do
  let vx ← aget s.registers x
  let vy ← aget s.registers y
  let regs ← aset s.registers 0xf (if vy > vx then 1 else 0)
  let vx2 ← aget regs x
  let vy2 ← aget regs y
  let regs2 ← aset regs x ((vy2 + 256 - vx2 % 256) % 256)
  pure (pc_next { s with registers := regs2 })

/-- `op8x0e` as written in the source: writes `VF`, shifts `Vx` left (wrapping at
8 bits), and does NOT advance the program counter. -/
def op8x0e (s : Processor) (x : Nat) : Option Processor := do
  let vx ← aget s.registers x
  let regs ← aset s.registers 0xf ((vx &&& 0x80) >>> 7)
  let vx2 ← aget regs x
  let regs2 ← aset regs x ((vx2 <<< 1) % 256)
  pure { s with registers := regs2 }

def op9xy0 (s : Processor) (x y : Nat) : Option Processor := do
  let vx ← aget s.registers x
  let vy ← aget s.registers y
  pure (if vx ≠ vy then pc_skip s else pc_next s)

def opannn (s : Processor) (nnn : Nat) : Processor := pc_next { s with i := nnn }

def opbnnn (s : Processor) (nnn : Nat) : Option Processor := do
  let v0 ← aget s.registers 0
  pure (pc_jump s (v0 + nnn))

/-- `opcxkk`: random byte AND mask; the RNG draw is the `rnd` oracle's low byte. -/
def opcxkk (s : Processor) (x kk rnd : Nat) : Option Processor := do
  let regs ← aset s.registers x (rnd % 256 &&& kk)
  pure (pc_next { s with registers := regs })

/-- One inner-loop iteration of `opdxyn` (one sprite bit): reads the current
`registers[x]`, the sprite byte at `i + byte`, the vram cell, OR-accumulates the
collision into `VF`, and XORs the bit into the cell. -/
def drawBit (x dy byte : Nat) (s : Processor) (bit : Nat) : Option Processor := do
  let rx ← aget s.registers x
  let dx := (rx + bit) % 64
  let mb ← aget s.memory (s.i + byte)
  let color := (mb >>> (7 - bit)) &&& 1
  let row ← aget s.vram dy
  let cell ← aget row dx
  let vf ← aget s.registers 0xf
  let regs ← aset s.registers 0xf (vf ||| (color &&& cell))
  let row2 ← aset row dx (cell ^^^ color)
  let vram2 ← aset s.vram dy row2
  pure { s with registers := regs, vram := vram2 }

/-- One outer-loop iteration of `opdxyn` (one sprite row). -/
def drawByte (x y : Nat) (s : Processor) (byte : Nat) : Option Processor := do
  let ry ← aget s.registers y
  let dy := (ry + byte) % 32
  (List.range 8).foldlM (drawBit x dy byte) s

/-- `opdxyn`: draw an n-byte sprite; clears `VF` first, then the nested loops,
then marks the vram changed and advances the pc. -/
def opdxyn (s : Processor) (x y n : Nat) : Option Processor := do
  let regs ← aset s.registers 0xf 0
  let s2 ← (List.range n).foldlM (drawByte x y) { s with registers := regs }
  pure (pc_next { s2 with vram_changed := true })

def opex9e (s : Processor) (x : Nat) : Option Processor := do
  let vx ← aget s.registers x
  let pressed ← aget s.keypad vx
  pure (if pressed then pc_skip s else pc_next s)

def opexa1 (s : Processor) (x : Nat) : Option Processor := do
  let vx ← aget s.registers x
  let pressed ← aget s.keypad vx
  pure (if !pressed then pc_skip s else pc_next s)

def opfx07 (s : Processor) (x : Nat) : Option Processor := do
  let regs ← aset s.registers x s.delay_timer
  pure (pc_next { s with registers := regs })

def opfx0a (s : Processor) (x : Nat) : Processor :=
  pc_next { s with keypresswait := true, key := x }

def opfx15 (s : Processor) (x : Nat) : Option Processor := do
  let vx ← aget s.registers x
  pure (pc_next { s with delay_timer := vx })

def opfx18 (s : Processor) (x : Nat) : Option Processor := do
  let vx ← aget s.registers x
  pure (pc_next { s with sound_timer := vx })

def opfx1e (s : Processor) (x : Nat) : Option Processor := do
  let vx ← aget s.registers x
  let i2 := s.i + vx
  let regs ← aset s.registers 0xf (if i2 > 0x0F00 then 1 else 0)
  pure (pc_next { s with i := i2, registers := regs })

def opfx29 (s : Processor) (x : Nat) : Option Processor := do
  let vx ← aget s.registers x
  pure (pc_next { s with i := vx * 5 })

def opfx33 (s : Processor) (x : Nat) : Option Processor := do
  let vx ← aget s.registers x
  let m1 ← aset s.memory s.i (vx / 100)
  let m2 ← aset m1 (s.i + 1) (vx % 100 / 10)
  let m3 ← aset m2 (s.i + 2) (vx % 10)
  pure (pc_next { s with memory := m3 })

def opfx55 (s : Processor) (x : Nat) : Option Processor := do
  let mem ← (List.range (x + 1)).foldlM
    (fun m j => do aset m (s.i + j) (← aget s.registers j)) s.memory
  pure (pc_next { s with memory := mem })

def opfx65 (s : Processor) (x : Nat) : Option Processor := do
  let regs ← (List.range (x + 1)).foldlM
    (fun r j => do aset r j (← aget s.memory (s.i + j))) s.registers
  pure (pc_next { s with registers := regs })

/-- `Processor::execute_once`: nibble split and dispatch (first match wins;
every unmatched pattern falls through to a bare `pc_next`). -/
def execute_once (s : Processor) (opcode rnd : Nat) : Option Processor :=
  let nnn := opcode &&& 0x0FFF
  let kk := opcode &&& 0x00FF
  let x := (opcode &&& 0x0F00) >>> 8
  let y := (opcode &&& 0x00F0) >>> 4
  let n := opcode &&& 0x000F
  match ((opcode &&& 0xF000) >>> 12, x, y, n) with
  | (0x00, 0x00, 0x0e, 0x00) => pure (op00e0 s)
  | (0x00, 0x00, 0x0e, 0x0e) => op00ee s
  | (0x01, _, _, _) => pure (op1nnn s nnn)
  | (0x02, _, _, _) => op2nnn s nnn
  | (0x03, _, _, _) => op3xkk s x kk
  | (0x04, _, _, _) => op4xkk s x kk
  | (0x05, _, _, 0x00) => op5xy0 s x y
  | (0x06, _, _, _) => op6xkk s x kk
  | (0x07, _, _, _) => op7xkk s x kk
  | (0x08, _, _, 0x00) => op8xy0 s x y
  | (0x08, _, _, 0x01) => op8xy1 s x y
  | (0x08, _, _, 0x02) => op8xy2 s x y
  | (0x08, _, _, 0x03) => op8xy3 s x y
  | (0x08, _, _, 0x04) => op8xy4 s x y
  | (0x08, _, _, 0x05) => op8xy5 s x y
  | (0x08, _, _, 0x06) => op8x06 s x
  | (0x08, _, _, 0x07) => op8xy7 s x y
  | (0x08, _, _, 0x0e) => op8x0e s x
  | (0x09, _, _, 0x00) => op9xy0 s x y
  | (0x0a, _, _, _) => pure (opannn s nnn)
  | (0x0b, _, _, _) => opbnnn s nnn
  | (0x0c, _, _, _) => opcxkk s x kk rnd
  | (0x0d, _, _, _) => opdxyn s x y n
  | (0x0e, _, 0x09, 0x0e) => opex9e s x
  | (0x0e, _, 0x0a, 0x01) => opexa1 s x
  | (0x0f, _, 0x00, 0x07) => opfx07 s x
  | (0x0f, _, 0x00, 0x0a) => pure (opfx0a s x)
  | (0x0f, _, 0x01, 0x05) => opfx15 s x
  | (0x0f, _, 0x01, 0x08) => opfx18 s x
  | (0x0f, _, 0x01, 0x0e) => opfx1e s x
  | (0x0f, _, 0x02, 0x09) => opfx29 s x
  | (0x0f, _, 0x03, 0x03) => opfx33 s x
  | (0x0f, _, 0x05, 0x05) => opfx55 s x
  | (0x0f, _, 0x06, 0x05) => opfx65 s x
  | _ => pure (pc_next s)

/-- The key-wait scan inside `tick`: the first pressed key (ascending order)
is written to `registers[key]` and the wait flag cleared; if no key is pressed
nothing changes. -/
def keyScan (kp : Array Bool) (s : Processor) : Option Processor :=
  match (List.range kp.size).find? (fun j => kp.getD j false) with
  | some idx => do
      let regs ← aset s.registers s.key idx
      pure { s with keypresswait := false, registers := regs }
  | none => pure s

/-- A concrete freshly built state used for concrete evaluations: like `new`
but with the memory written as a plain constant array. -/
def P0 : Processor where
  memory := Array.mkArray 4096 0
  registers := Array.mkArray 16 0
  stack := Array.mkArray 48 0
  sp := 0
  delay_timer := 0
  sound_timer := 0
  vram := Array.mkArray 32 (Array.mkArray 64 0)
  keypresswait := false
  key := 0
  keypad := Array.mkArray 16 false
  pc := 0x200
  i := 0
  vram_changed := false

/-- `Processor::tick`: stores the keypad snapshot, resets the changed flag,
then either resolves the key wait or decrements the timers and executes one
fetched opcode; returns the new state and the observable snapshot. -/
def tick (s : Processor) (keypad : Array Bool) (rnd : Nat) :
    Option (Processor × ProcessorState) := do
  let s0 := { s with keypad := keypad, vram_changed := false }
  let s1 ←
    if s0.keypresswait then
      keyScan keypad s0
    else do
      let s0 := { s0 with
        delay_timer := if s0.delay_timer > 0 then s0.delay_timer - 1 else s0.delay_timer,
        sound_timer := if s0.sound_timer > 0 then s0.sound_timer - 1 else s0.sound_timer }
      let opcode ← get_opcode s0
      execute_once s0 opcode rnd
  pure (s1, { vram := s1.vram, vram_changed := s1.vram_changed, beep := s1.sound_timer > 0 })

/-! ## Basic lemmas about the array-access helpers -/

theorem aset_lt {a : Array α} {i : Nat} (h : i < a.size) (v : α) :
    aset a i v = some (a.setD i v) := by
  simp [aset, h]

theorem aget_getD {a : Array α} {i : Nat} (h : i < a.size) (d : α) :
    aget a i = some (a.getD i d) := by
  simp [aget, Array.getElem?_lt _ h, Array.getD, h]

theorem getElem?_setD_ne (a : Array α) {i j : Nat} (v : α) (h : i ≠ j) :
    (a.setD i v)[j]? = a[j]? := by
  unfold Array.setD
  split
  · exact Array.getElem?_set_ne _ _ _ h
  · rfl

/-! ## C1 — the 5xy0 skip instruction

The source's `op5xy0` skips (PC += 4) when `Vx ≠ Vy` and advances by 2 when
`Vx = Vy` — identical to `op9xy0` and the reverse of the skip-equal semantics
the spec states for opcode `5xy0`. -/

/-- C1: at a state whose `V0` and `V1` are both `0` (equal), `op5xy0` advances
PC by 2, and at a state with `V0 = 1 ≠ 0 = V1` it advances PC by 4 — the exact
reverse of the claimed "PC += 4 if Vx equals Vy, else += 2". -/
theorem c1_skip_equal_reversed :
    op5xy0 P0 0 1 = some { P0 with pc := 0x202 } ∧
    op5xy0 { P0 with registers := (Array.mkArray 16 0).setD 0 1 } 0 1
      = some { P0 with registers := (Array.mkArray 16 0).setD 0 1, pc := 0x204 } := by
  constructor <;> rfl

/-! ## C2 — the 8x0E shift-left instruction omits the PC advance -/

/-- C2: at a concrete state with `V0 = 0x81`, `op8x0e` correctly sets
`VF = 1` (the old MSB) and `V0 = 2` (the wrapped shift) but leaves
`pc = 0x200` unchanged, where the claim requires the default advance to
`0x202`. -/
theorem c2_shift_left_no_advance :
    op8x0e { P0 with registers := (Array.mkArray 16 0).setD 0 0x81 } 0
      = some { P0 with
          registers := (((Array.mkArray 16 0).setD 0 0x81).setD 15 1).setD 0 2 } ∧
    (op8x0e { P0 with registers := (Array.mkArray 16 0).setD 0 0x81 } 0).map
        Processor.pc = some 0x200 := by
  constructor <;> rfl

/-! ## C7 — call/return round trip -/

/-- C7: from any state with `sp < 48` (and the 48-slot stack), `op2nnn` pushes
`pc + 2` at slot `sp`, increments `sp`, and jumps to `nnn`; the following
`op00ee` restores `pc` to exactly `pc + 2` and `sp` to its prior value. -/
theorem c7_call_return_round_trip (s : Processor) (nnn : Nat)
    (hsp : s.sp < 48) (hstk : s.stack.size = 48) :
    ∃ s1 s2, op2nnn s nnn = some s1 ∧
      s1.pc = nnn ∧ s1.sp = s.sp + 1 ∧ s1.stack[s.sp]? = some (s.pc + 2) ∧
      op00ee s1 = some s2 ∧ s2.pc = s.pc + 2 ∧ s2.sp = s.sp := by
  have hlt : s.sp < s.stack.size := by omega
  have h1 : op2nnn s nnn =
      some (pc_jump { s with stack := s.stack.setD s.sp (s.pc + 2), sp := s.sp + 1 } nnn) := by
    simp [op2nnn, aset_lt hlt]
  refine ⟨pc_jump { s with stack := s.stack.setD s.sp (s.pc + 2), sp := s.sp + 1 } nnn,
          { s with stack := s.stack.setD s.sp (s.pc + 2), sp := s.sp, pc := s.pc + 2 },
          h1, rfl, rfl, Array.getElem?_setD_eq _ hlt _, ?_, rfl, rfl⟩
  simp [op00ee, pc_jump, aget, Array.getElem?_setD_eq _ hlt]

/-- C7 witness: the round trip at the concrete fresh state `P0` with target
address `0x300`. -/
theorem c7_witness :
    ∃ s1 s2, op2nnn P0 0x300 = some s1 ∧
      s1.pc = 0x300 ∧ s1.sp = P0.sp + 1 ∧ s1.stack[P0.sp]? = some (P0.pc + 2) ∧
      op00ee s1 = some s2 ∧ s2.pc = P0.pc + 2 ∧ s2.sp = P0.sp :=
  c7_call_return_round_trip P0 0x300 (by decide) (by decide)

/-! ## C8 — add immediate (7xkk) -/

/-- C8 counterexample: for `x = 0xF` the claim fails, because `Vx` and `VF` are
the same register: with `V15 = 5`, `kk = 7`, the final `registers[15]` is the
overflow flag `0` and not the claimed sum `12`. -/
theorem c8_counterexample :
    (op7xkk { P0 with registers := (Array.mkArray 16 0).setD 15 5 } 15 7).map
      (fun s => s.registers.getD 15 99) = some 0 ∧ (0 : Nat) ≠ 12 := by
  exact ⟨rfl, by decide⟩

/-- C8 (amended: for every register index `x ≠ 0xF`): `op7xkk` stores
`(Vx + kk) % 256` in `Vx`, then sets `VF` to `1` iff `Vx + kk > 0xFF`,
and advances PC by 2. -/
theorem c8_add_immediate (s : Processor) (x kk vx : Nat)
    (hx : x < 16) (hx15 : x ≠ 15) (hsz : s.registers.size = 16)
    (hvx : s.registers[x]? = some vx) :
    ∃ s', op7xkk s x kk = some s' ∧
      s'.registers.getD x 0 = (vx + kk) % 256 ∧
      s'.registers.getD 15 0 = (if vx + kk > 0xff then 1 else 0) ∧
      s'.pc = s.pc + 2 := by
  have hx' : x < s.registers.size := by omega
  have h15 : (15 : Nat) < (s.registers.setD x ((vx + kk) % 256)).size := by
    simp [hsz]
  refine ⟨pc_next { s with registers :=
      ((s.registers.setD x ((vx + kk) % 256)).setD 15
        (if vx + kk > 0xff then 1 else 0)) }, ?_, ?_, ?_, rfl⟩
  · simp [op7xkk, aget, hvx, aset_lt hx', aset_lt h15]
  · simp [pc_next, Array.getD_eq_get?, getElem?_setD_ne _ _ (by omega : (15:Nat) ≠ x),
      Array.getElem?_setD_eq _ hx']
  · simp [pc_next, Array.getD_eq_get?, Array.getElem?_setD_eq _ h15]

/-- C8 witness: the claim's own example `Vx = 0xFF`, `kk = 0x01` at `x = 0`:
the result registers hold `(0xFF + 1) % 256 = 0` in `V0` and `1` in `VF`. -/
theorem c8_witness :
    ∃ s', op7xkk { P0 with registers := (Array.mkArray 16 0).setD 0 0xff } 0 1 = some s' ∧
      s'.registers.getD 0 0 = (0xff + 1) % 256 ∧
      s'.registers.getD 15 0 = (if 0xff + 1 > 0xff then 1 else 0) ∧
      s'.pc = P0.pc + 2 :=
  c8_add_immediate _ 0 1 0xff (by decide) (by decide) (by decide) (by decide)

/-! ## C9 — register subtract (8xy5) -/

/-- C9 counterexample: for `y = 0xF` the claim fails, because `VF` is written
before the subtraction reads `Vy`: with `V0 = 5`, `V15 = 3`, the code computes
`V0 := 5 - VF = 5 - 1 = 4`, not the claimed `5 - 3 = 2`. -/
theorem c9_counterexample :
    (op8xy5 { P0 with registers := ((Array.mkArray 16 0).setD 0 5).setD 15 3 } 0 15).map
      (fun s => s.registers.getD 0 99) = some 4 ∧ (4 : Nat) ≠ 2 := by
  exact ⟨rfl, by decide⟩

/-- C9 (amended: for register indices `x ≠ 0xF` and `y ≠ 0xF`): `op8xy5` sets
`VF := 1` iff the old `Vx` is strictly greater than `Vy` (else `0`), sets
`Vx := (Vx - Vy) mod 256` with wrap-around on underflow, and advances PC by 2. -/
theorem c9_reg_subtract (s : Processor) (x y vx vy : Nat)
    (hx : x < 16) (hy : y < 16) (hx15 : x ≠ 15) (hy15 : y ≠ 15)
    (hsz : s.registers.size = 16) (hvx : s.registers[x]? = some vx)
    (hvy : s.registers[y]? = some vy) (hvy8 : vy < 256) :
    ∃ s', op8xy5 s x y = some s' ∧
      s'.registers.getD x 0 = (vx + 256 - vy) % 256 ∧
      s'.registers.getD 15 0 = (if vx > vy then 1 else 0) ∧
      s'.pc = s.pc + 2 := by
  have h15 : (15 : Nat) < s.registers.size := by omega
  have hx2 : x < (s.registers.setD 15 (if vx > vy then 1 else 0)).size := by
    simp [hsz]; omega
  have hgx : (s.registers.setD 15 (if vx > vy then 1 else 0))[x]? = some vx := by
    rw [getElem?_setD_ne _ _ (by omega)]; exact hvx
  have hgy : (s.registers.setD 15 (if vx > vy then 1 else 0))[y]? = some vy := by
    rw [getElem?_setD_ne _ _ (by omega)]; exact hvy
  refine ⟨pc_next { s with registers :=
      ((s.registers.setD 15 (if vx > vy then 1 else 0)).setD x
        ((vx + 256 - vy) % 256)) }, ?_, ?_, ?_, rfl⟩
  · simp [op8xy5, aget, hvx, hvy, aset_lt h15, hgx, hgy, aset_lt hx2,
      Nat.mod_eq_of_lt hvy8]
  · simp [pc_next, Array.getD_eq_get?, Array.getElem?_setD_eq _ hx2]
  · have h15' : (15 : Nat) < (s.registers.setD 15 (if vx > vy then 1 else 0)).size := by
      simp [hsz]
    simp [pc_next, Array.getD_eq_get?, getElem?_setD_ne _ _ (by omega : x ≠ 15),
      Array.getElem?_setD_eq _ h15]

/-- C9 witness: the claim's forward-subtract examples at `x = 0`, `y = 1`:
`V0 = 5, V1 = 3` gives `V0 = 2` with `VF = 1`. -/
theorem c9_witness :
    ∃ s', op8xy5 { P0 with registers := ((Array.mkArray 16 0).setD 0 5).setD 1 3 } 0 1
        = some s' ∧
      s'.registers.getD 0 0 = (5 + 256 - 3) % 256 ∧
      s'.registers.getD 15 0 = (if 5 > 3 then 1 else 0) ∧
      s'.pc = P0.pc + 2 :=
  c9_reg_subtract _ 0 1 5 3 (by decide) (by decide) (by decide) (by decide)
    (by decide) (by decide) (by decide) (by decide)

/-! ## C4 — program loading -/

/-- The copy loop of `load_program` succeeds on a 4096-byte memory whenever the
byte indices `[j, j + k)` it still has to copy stay below `4096 - 0x200`, and
the resulting memory holds the copied bytes at `0x200 + t` and is untouched
elsewhere. -/
theorem load_fold_ok (bytes : List Nat) :
    ∀ (k j : Nat) (m : Array Nat), m.size = 4096 → j + k ≤ 3584 →
    ∃ m', (List.range' j k).foldlM
        (fun m j => aset m (j + 0x200) (bytes.getD j 0)) m = some m' ∧
      m'.size = 4096 ∧
      (∀ a, a < 0x200 + j ∨ 0x200 + j + k ≤ a → m'[a]? = m[a]?) ∧
      (∀ t, j ≤ t → t < j + k → m'[t + 0x200]? = some (bytes.getD t 0))
  | 0, j, m, hm, _ =>
    ⟨m, by simp, hm, fun a _ => rfl, fun t ht1 ht2 => by omega⟩
  | k+1, j, m, hm, hjk => by
    have hlt : j + 0x200 < m.size := by omega
    have hm2 : (m.setD (j + 0x200) (bytes.getD j 0)).size = 4096 := by simp [hm]
    obtain ⟨m', hfold, hsz, hout, hin⟩ :=
      load_fold_ok bytes k (j + 1) (m.setD (j + 0x200) (bytes.getD j 0)) hm2 (by omega)
    refine ⟨m', ?_, hsz, ?_, ?_⟩
    · rw [List.range'_succ, List.foldlM_cons, aset_lt hlt]
      simpa using hfold
    · intro a ha
      have h1 : m'[a]? = (m.setD (j + 0x200) (bytes.getD j 0))[a]? := by
        refine hout a ?_; omega
      rw [h1, getElem?_setD_ne _ _ (by omega)]
    · intro t ht1 ht2
      by_cases h : t = j
      · subst h
        have h1 : m'[t + 0x200]? = (m.setD (t + 0x200) (bytes.getD t 0))[t + 0x200]? := by
          refine hout (t + 0x200) ?_; omega
        rw [h1, Array.getElem?_setD_eq _ (by omega)]
      · exact hin t (by omega) (by omega)

/-- The copy loop of `load_program` hits the out-of-bounds write (and so
panics / returns `none`) as soon as the indices it still has to copy reach
`4096 - 0x200 = 3584`. -/
theorem load_fold_fail (bytes : List Nat) :
    ∀ (k j : Nat) (m : Array Nat), m.size = 4096 → j ≤ 3584 → 3584 < j + k →
    (List.range' j k).foldlM
        (fun m j => aset m (j + 0x200) (bytes.getD j 0)) m = none
  | 0, j, _, _, hj, hjk => by omega
  | k+1, j, m, hm, hj, hjk => by
    simp only [List.range'_succ, List.foldlM_cons]
    by_cases h : j = 3584
    · subst h
      have hnone : aset m (3584 + 0x200) (bytes.getD 3584 0) = none := by
        simp [aset, hm]
      rw [hnone]
      rfl
    · rw [aset_lt (show j + 0x200 < m.size by omega)]
      simpa using load_fold_fail bytes k (j + 1)
        (m.setD (j + 0x200) (bytes.getD j 0)) (by simp [hm]) (by omega) (by omega)

/-- C4: on a 4096-byte memory, `load_program` fails (the Rust code panics on
its first out-of-bounds write, modelled as `none`, so nothing is silently
truncated and the font region is never overwritten) iff the program is larger
than `4096 - 0x200` bytes; otherwise it copies the bytes verbatim to
`[0x200, 0x200 + len)` and leaves every other memory address — in particular
the whole font region `[0, 0x200)` — and every other state field unchanged. -/
theorem c4_load_program (s : Processor) (bytes : List Nat)
    (hm : s.memory.size = 4096) :
    (bytes.length > 4096 - 0x200 → load_program s bytes = none) ∧
    (bytes.length ≤ 4096 - 0x200 → ∃ s', load_program s bytes = some s' ∧
      s'.memory.size = 4096 ∧
      (∀ k, k < bytes.length → s'.memory[k + 0x200]? = bytes[k]?) ∧
      (∀ a, a < 0x200 → s'.memory[a]? = s.memory[a]?) ∧
      (∀ a, 0x200 + bytes.length ≤ a → s'.memory[a]? = s.memory[a]?) ∧
      s'.registers = s.registers ∧ s'.stack = s.stack ∧ s'.sp = s.sp ∧
      s'.delay_timer = s.delay_timer ∧ s'.sound_timer = s.sound_timer ∧
      s'.vram = s.vram ∧ s'.keypresswait = s.keypresswait ∧ s'.key = s.key ∧
      s'.keypad = s.keypad ∧ s'.pc = s.pc ∧ s'.i = s.i ∧
      s'.vram_changed = s.vram_changed) := by
  constructor
  · intro hbig
    have hfail := load_fold_fail bytes bytes.length 0 s.memory hm (by omega) (by omega)
    rw [load_program, List.range_eq_range']
    rw [hfail]
    rfl
  · intro hfit
    obtain ⟨m', hfold, hsz, hout, hin⟩ :=
      load_fold_ok bytes bytes.length 0 s.memory hm (by omega)
    refine ⟨{ s with memory := m' }, ?_, hsz, ?_, ?_, ?_,
      rfl, rfl, rfl, rfl, rfl, rfl, rfl, rfl, rfl, rfl, rfl, rfl⟩
    · rw [load_program, List.range_eq_range', hfold]
      rfl
    · intro k hk
      have := hin k (by omega) (by omega)
      rw [this, List.getD_eq_getElem?_getD, List.getElem?_eq_getElem hk]
      rfl
    · intro a ha
      exact hout a (by omega)
    · intro a ha
      exact hout a (by omega)

/-- C4 witness: loading the three-byte program `[1, 2, 3]` into the fresh
state `P0`. -/
theorem c4_witness :
    (([1, 2, 3] : List Nat).length > 4096 - 0x200 → load_program P0 [1, 2, 3] = none) ∧
    (([1, 2, 3] : List Nat).length ≤ 4096 - 0x200 →
      ∃ s', load_program P0 [1, 2, 3] = some s' ∧
      s'.memory.size = 4096 ∧
      (∀ k, k < ([1, 2, 3] : List Nat).length →
        s'.memory[k + 0x200]? = ([1, 2, 3] : List Nat)[k]?) ∧
      (∀ a, a < 0x200 → s'.memory[a]? = P0.memory[a]?) ∧
      (∀ a, 0x200 + ([1, 2, 3] : List Nat).length ≤ a →
        s'.memory[a]? = P0.memory[a]?) ∧
      s'.registers = P0.registers ∧ s'.stack = P0.stack ∧ s'.sp = P0.sp ∧
      s'.delay_timer = P0.delay_timer ∧ s'.sound_timer = P0.sound_timer ∧
      s'.vram = P0.vram ∧ s'.keypresswait = P0.keypresswait ∧ s'.key = P0.key ∧
      s'.keypad = P0.keypad ∧ s'.pc = P0.pc ∧ s'.i = P0.i ∧
      s'.vram_changed = P0.vram_changed) :=
  c4_load_program P0 [1, 2, 3] (by simp [P0])

/-! ## C5 — resolving a key wait -/

/-- `find?` over an ascending index range returns the least index satisfying
the predicate. -/
theorem find?_range'_min (p : Nat → Bool) :
    ∀ (n j idx : Nat), (List.range' j n).find? p = some idx →
      p idx = true ∧ j ≤ idx ∧ ∀ m, j ≤ m → m < idx → p m = false
  | 0, j, idx, h => by simp at h
  | n+1, j, idx, h => by
    rw [List.range'_succ] at h
    by_cases hpj : p j
    · rw [List.find?_cons_of_pos _ hpj] at h
      obtain rfl : j = idx := by simpa using h
      exact ⟨hpj, Nat.le_refl _, fun m h1 h2 => by omega⟩
    · rw [List.find?_cons_of_neg _ hpj] at h
      obtain ⟨h1, h2, h3⟩ := find?_range'_min p n (j + 1) idx h
      refine ⟨h1, by omega, fun m hm1 hm2 => ?_⟩
      by_cases hmj : m = j
      · subst hmj; simpa using hpj
      · exact h3 m (by omega) hm2

/-- C5: a tick in key-wait state with some key pressed writes the lowest
pressed key index into register `key`, clears the wait flag, and changes
nothing else beyond storing the keypad snapshot and resetting the
changed-this-tick flag; in particular the timers are not decremented. -/
theorem c5_key_wait_tick (s : Processor) (kp : Array Bool) (rnd : Nat)
    (hw : s.keypresswait = true) (hkey : s.key < 16) (hsz : s.registers.size = 16)
    (hkp : kp.size = 16) (hpress : ∃ i, i < 16 ∧ kp.getD i false = true) :
    ∃ j, kp.getD j false = true ∧ (∀ m, m < j → kp.getD m false = false) ∧
      tick s kp rnd = some
        ({ s with
             keypad := kp, vram_changed := false, keypresswait := false,
             registers := s.registers.setD s.key j },
         { vram := s.vram, vram_changed := false, beep := s.sound_timer > 0 }) := by
  obtain ⟨i0, hi0, hp0⟩ := hpress
  have hne : (List.range kp.size).find? (fun j => kp.getD j false) ≠ none := by
    rw [Ne, List.find?_eq_none]
    intro hall
    have := hall i0 (by rw [List.mem_range]; omega)
    simp [hp0] at this
  cases hfind : (List.range kp.size).find? (fun j => kp.getD j false) with
  | none => exact absurd hfind hne
  | some j =>
    have hj := find?_range'_min (fun j => kp.getD j false) kp.size 0 j
      (by rw [← List.range_eq_range']; exact hfind)
    refine ⟨j, by simpa using hj.1, fun m hm => by simpa using hj.2.2 m (by omega) hm, ?_⟩
    have hklt : s.key < s.registers.size := by omega
    simp only [tick, hw, if_true, keyScan, hfind]
    simp [aset_lt hklt]

/-- The key-wait witness scenario's state: waiting on register 3, both timers 9. -/
def C5S : Processor :=
  { P0 with keypresswait := true, key := 3, delay_timer := 9, sound_timer := 9 }

/-- The key-wait witness scenario's keypad: only key 7 pressed. -/
def C5K : Array Bool := (Array.mkArray 16 false).setD 7 true

/-- C5 witness: the spec's round-trip example — key-wait targeting register 3,
ticking with only key 7 pressed, on nonzero timers. -/
theorem c5_witness :
    ∃ j, C5K.getD j false = true ∧ (∀ m, m < j → C5K.getD m false = false) ∧
      tick C5S C5K 0 = some
        ({ C5S with
             keypad := C5K, vram_changed := false, keypresswait := false,
             registers := C5S.registers.setD C5S.key j },
         { vram := C5S.vram, vram_changed := false, beep := C5S.sound_timer > 0 }) :=
  c5_key_wait_tick C5S C5K 0 rfl (by decide) (by simp [C5S, P0]) (by simp [C5K])
    ⟨7, by decide, by decide⟩

/-! ## C3 — the program counter is NOT confined to [0, 4096)

From the freshly initialized state (no program loaded, no key pressed) every
fetch reads the opcode `0x0000`, which dispatches to the default branch and
just advances PC by 2; after 1792 ticks PC reaches exactly 4096. -/

/-- Writes at indices `< k` do not affect reads at indices `≥ k`. -/
theorem fold_setD_getElem?_ge (f : Nat → Nat) :
    ∀ (k : Nat) (m : Array Nat) (q : Nat), k ≤ q →
      ((List.range k).foldl (fun a x => a.setD x (f x)) m)[q]? = m[q]?
  | 0, _, _, _ => rfl
  | k+1, m, q, h => by
    rw [List.range_succ, List.foldl_append]
    simp only [List.foldl_cons, List.foldl_nil]
    rw [getElem?_setD_ne _ _ (by omega)]
    exact fold_setD_getElem?_ge f k m q (by omega)

/-- Every address the font fill of `new` does not reach (in particular the whole
program area from `0x200` up) reads as `0`. -/
theorem new_mem_read (q : Nat) (h80 : 80 ≤ q) (hq : q < 4096) :
    aget new.memory q = some 0 := by
  have hnm : new.memory = initMemory := by simp [new]
  rw [aget, hnm, initMemory, show FONT_SET.length = 80 from rfl]
  rw [fold_setD_getElem?_ge _ 80 _ q h80]
  rw [Array.getElem?_mkArray]
  simp [hq]

/-- The all-zero opcode matches no dispatch pattern, so `execute_once` falls
through to the bare `pc_next`. -/
theorem execute_once_zero (s : Processor) (rnd : Nat) :
    execute_once s 0 rnd = some (pc_next s) := rfl

/-- A tick of a non-waiting state with zeroed timers that fetches the opcode
`0x0000` only stores the keypad, resets the changed flag, and advances PC by 2
(the dispatcher's fall-through branch). -/
theorem tick_zero_step (s : Processor) (kp : Array Bool)
    (hw : s.keypresswait = false) (hd : s.delay_timer = 0) (hs : s.sound_timer = 0)
    (hm1 : aget s.memory s.pc = some 0) (hm2 : aget s.memory (s.pc + 1) = some 0) :
    tick s kp 0 = some ({ s with keypad := kp, vram_changed := false, pc := s.pc + 2 },
      { vram := s.vram, vram_changed := false, beep := false }) := by
  simp [tick, hw, hd, hs, get_opcode, hm1, hm2, execute_once_zero, pc_next]

/-- The C3 trajectory: iterate `tick` from `new` with no key ever pressed
(and RNG oracle 0, which no executed instruction consults). -/
def ticksFromInit : Nat → Option Processor
  | 0 => some new
  | n+1 => (ticksFromInit n).bind
      (fun s => (tick s (Array.mkArray 16 false) 0).map Prod.fst)

theorem ticks_pc : ∀ n, n ≤ 1792 → ticksFromInit n = some { new with pc := 512 + 2 * n }
  | 0, _ => by simp [ticksFromInit, new]
  | n+1, h => by
    rw [ticksFromInit, ticks_pc n (by omega)]
    have hsmem : ({ new with pc := 512 + 2 * n } : Processor).memory = new.memory := by
      simp
    have hw : ({ new with pc := 512 + 2 * n } : Processor).keypresswait = false := by
      simp [new]
    have hd : ({ new with pc := 512 + 2 * n } : Processor).delay_timer = 0 := by
      simp [new]
    have hs : ({ new with pc := 512 + 2 * n } : Processor).sound_timer = 0 := by
      simp [new]
    have hm1 : aget ({ new with pc := 512 + 2 * n } : Processor).memory
        (({ new with pc := 512 + 2 * n } : Processor).pc) = some 0 := by
      rw [hsmem, show ({ new with pc := 512 + 2 * n } : Processor).pc = 512 + 2 * n by simp]
      exact new_mem_read _ (by omega) (by omega)
    have hm2 : aget ({ new with pc := 512 + 2 * n } : Processor).memory
        (({ new with pc := 512 + 2 * n } : Processor).pc + 1) = some 0 := by
      rw [hsmem, show ({ new with pc := 512 + 2 * n } : Processor).pc = 512 + 2 * n by simp]
      exact new_mem_read _ (by omega) (by omega)
    have hstep := tick_zero_step { new with pc := 512 + 2 * n } (Array.mkArray 16 false)
      hw hd hs hm1 hm2
    rw [Option.some_bind, hstep]
    have harith : 512 + 2 * n + 2 = 512 + 2 * (n + 1) := by omega
    simp [new, harith]

/-- C3 counterexample: it is not true that PC stays within `[0, 4096)` along
every tick sequence from the initialized state — after 1792 ticks with no
input, PC is exactly 4096. -/
theorem c3_counterexample :
    ¬ (∀ n s, ticksFromInit n = some s → s.pc < 4096) := by
  intro hall
  have h := hall 1792 _ (ticks_pc 1792 (by omega))
  simp at h

/-- C3 (amended): PC stays in `[0, 4096)` only while execution has not walked
off the end of memory: from the initialized state with no program and no input,
after `n ≤ 1792` ticks PC is exactly `0x200 + 2n`, which is `< 4096` for
`n < 1792` but reaches `4096` (outside `[0, 4096)`) at `n = 1792`, after which
the next fetch would be out of bounds. -/
theorem c3_amended (n : Nat) (hn : n ≤ 1792) :
    ticksFromInit n = some { new with pc := 512 + 2 * n } ∧
    (n < 1792 → 512 + 2 * n < 4096) ∧ (n = 1792 → 512 + 2 * n = 4096) :=
  ⟨ticks_pc n hn, by omega, by omega⟩

/-- C3 witness: the amended statement evaluated at the boundary tick 1792. -/
theorem c3_witness :
    ticksFromInit 1792 = some { new with pc := 512 + 2 * 1792 } ∧
    (1792 < 1792 → 512 + 2 * 1792 < 4096) ∧ (1792 = 1792 → 512 + 2 * 1792 = 4096) :=
  c3_amended 1792 (by omega)

/-! ## C6 and C10 — machinery for the sprite-draw instruction

`opdxyn` is related to a pure model on pairs `(VF accumulator, vram)`; the
combinatorial facts (distinct target cells, XOR cancellation, OR-accumulated
collisions) are proved on the pure model. -/

theorem setD_ge (a : Array α) {i : Nat} (h : a.size ≤ i) (v : α) : a.setD i v = a := by
  unfold Array.setD
  rw [dif_neg (by omega)]

theorem getD_setD_eq (a : Array α) {i : Nat} (h : i < a.size) (v d : α) :
    (a.setD i v).getD i d = v := by
  simp [Array.getD_eq_get?, Array.getElem?_setD_eq _ h]

theorem getD_setD_ne (a : Array α) {i j : Nat} (h : i ≠ j) (v d : α) :
    (a.setD i v).getD j d = a.getD j d := by
  simp [Array.getD_eq_get?, getElem?_setD_ne _ _ h]

/-- Destination column of sprite bit `t` drawn at x-coordinate `rx`. -/
def dxOf (rx t : Nat) : Nat := (rx + t) % 64

/-- Destination row of sprite byte `b` drawn at y-coordinate `ry`. -/
def dyOf (ry b : Nat) : Nat := (ry + b) % 32

/-- Bit `t` (MSB first) of the sprite byte `mb`. -/
def colorOf (mb t : Nat) : Nat := (mb >>> (7 - t)) &&& 1

/-- Read a vram cell (default 0 outside bounds). -/
def cellv (v : Array (Array Nat)) (r c : Nat) : Nat := (v.getD r #[]).getD c 0

/-- Write a vram cell. -/
def vset (v : Array (Array Nat)) (r c val : Nat) : Array (Array Nat) :=
  v.setD r ((v.getD r #[]).setD c val)

/-- Well-formed 32×64 vram. -/
def VShape (v : Array (Array Nat)) : Prop :=
  v.size = 32 ∧ ∀ r, r < 32 → (v.getD r #[]).size = 64

instance (v : Array (Array Nat)) : Decidable (VShape v) :=
  decidable_of_iff (v.size = 32 ∧ ∀ r, r < 32 → (v.getD r #[]).size = 64) Iff.rfl

theorem vshape_vset {v : Array (Array Nat)} (hv : VShape v) (r c val : Nat) :
    VShape (vset v r c val) := by
  obtain ⟨h1, h2⟩ := hv
  refine ⟨by simp [vset, h1], fun r' hr' => ?_⟩
  by_cases h : r = r'
  · subst h
    rw [vset, getD_setD_eq _ (by omega), Array.size_setD]
    exact h2 r hr'
  · rw [vset, getD_setD_ne _ h]
    exact h2 r' hr'

theorem cellv_vset_eq {v : Array (Array Nat)} (hv : VShape v) {r c : Nat}
    (hr : r < 32) (hc : c < 64) (val : Nat) :
    cellv (vset v r c val) r c = val := by
  obtain ⟨h1, h2⟩ := hv
  rw [cellv, vset, getD_setD_eq _ (by omega), getD_setD_eq _ (by rw [h2 r hr]; omega)]

theorem cellv_vset_ne (v : Array (Array Nat)) {r c r' c' : Nat}
    (h : r ≠ r' ∨ c ≠ c') (val : Nat) :
    cellv (vset v r c val) r' c' = cellv v r' c' := by
  rcases h with h | h
  · rw [cellv, vset, getD_setD_ne _ h, cellv]
  · by_cases hr : r = r'
    · subst hr
      by_cases hlt : r < v.size
      · rw [cellv, vset, getD_setD_eq _ hlt, getD_setD_ne _ h, cellv]
      · rw [cellv, vset, setD_ge _ (by omega), cellv]
    · rw [cellv, vset, getD_setD_ne _ hr, cellv]

/-- Distinct bits of one sprite row land in distinct columns. -/
theorem dxOf_ne (rx : Nat) {t t' : Nat} (h : t < 8) (h' : t' < 8) (hne : t ≠ t') :
    dxOf rx t ≠ dxOf rx t' := by
  rw [dxOf, dxOf]
  omega

/-- Distinct sprite bytes of a sprite of height at most 32 land in distinct rows. -/
theorem dyOf_ne (ry : Nat) {b b' : Nat} (h : b < 32) (h' : b' < 32) (hne : b ≠ b') :
    dyOf ry b ≠ dyOf ry b' := by
  rw [dyOf, dyOf]
  omega

theorem dxOf_lt (rx t : Nat) : dxOf rx t < 64 := Nat.mod_lt _ (by omega)

theorem dyOf_lt (ry b : Nat) : dyOf ry b < 32 := Nat.mod_lt _ (by omega)

/-- One bit of the pure draw model: OR the collision into the accumulator and
XOR the color into the cell, mirroring the inner loop body of `opdxyn`. -/
def pureBit (rx mb dy : Nat) (p : Nat × Array (Array Nat)) (t : Nat) :
    Nat × Array (Array Nat) :=
  (p.1 ||| (colorOf mb t &&& cellv p.2 dy (dxOf rx t)),
   vset p.2 dy (dxOf rx t) (cellv p.2 dy (dxOf rx t) ^^^ colorOf mb t))

/-- One row of the pure draw model. -/
def pureRow (rx mb dy : Nat) (p : Nat × Array (Array Nat)) : Nat × Array (Array Nat) :=
  (List.range 8).foldl (pureBit rx mb dy) p

theorem setD_setD (a : Array α) (i : Nat) (v w : α) :
    (a.setD i v).setD i w = a.setD i w := by
  by_cases h : i < a.size
  · have h2 : i < (a.set ⟨i, h⟩ v).size := by simpa using h
    unfold Array.setD
    rw [dif_pos h, dif_pos h2, dif_pos h]
    exact Array.set_set a ⟨i, h⟩ v w
  · rw [setD_ge _ (by omega) v]

/-- One iteration of the inner loop of `opdxyn` is the lift of `pureBit` to the
processor state (the accumulator living in register 15). -/
theorem drawBit_step (x dy byte : Nat) (s : Processor) (t : Nat)
    (hx : x < 16) (hsz : s.registers.size = 16)
    (hmem : s.i + byte < s.memory.size)
    (hdy : dy < 32) (hvs : VShape s.vram) :
    drawBit x dy byte s t = some
      { s with
          registers := s.registers.setD 15
            ((pureBit (s.registers.getD x 0) (s.memory.getD (s.i + byte) 0) dy
              (s.registers.getD 15 0, s.vram) t).1),
          vram := (pureBit (s.registers.getD x 0) (s.memory.getD (s.i + byte) 0) dy
              (s.registers.getD 15 0, s.vram) t).2 } := by
  obtain ⟨hv1, hv2⟩ := hvs
  have hrowsz : (s.vram.getD dy #[]).size = 64 := hv2 dy hdy
  have h1 : aget s.registers x = some (s.registers.getD x 0) := aget_getD (by omega) 0
  have h2 : aget s.memory (s.i + byte) = some (s.memory.getD (s.i + byte) 0) :=
    aget_getD hmem 0
  have h3 : aget s.vram dy = some (s.vram.getD dy #[]) := aget_getD (by omega) #[]
  have h4 : aget (s.vram.getD dy #[]) ((s.registers.getD x 0 + t) % 64) =
      some ((s.vram.getD dy #[]).getD ((s.registers.getD x 0 + t) % 64) 0) :=
    aget_getD (by rw [hrowsz]; omega) 0
  have h5 : aget s.registers 15 = some (s.registers.getD 15 0) := aget_getD (by omega) 0
  simp only [drawBit, Option.bind_eq_bind, Option.pure_def, h1, Option.some_bind, h2, h3,
    h4, h5,
    aset_lt (show (15 : Nat) < s.registers.size by omega),
    aset_lt (show (s.registers.getD x 0 + t) % 64 < (s.vram.getD dy #[]).size by
      rw [hrowsz]; omega),
    aset_lt (show dy < s.vram.size by omega),
    pureBit, dxOf, colorOf, cellv, vset]

/-- The inner loop of `opdxyn` over any list of bits is the lift of the
`pureBit` fold. -/
theorem drawBits_lift (x byte dy : Nat) (hx : x < 16) (hx15 : x ≠ 15) (hdy : dy < 32) :
    ∀ (l : List Nat) (s0 : Processor) (p : Nat × Array (Array Nat)),
      s0.registers.size = 16 → s0.i + byte < s0.memory.size → VShape p.2 →
      l.foldlM (drawBit x dy byte)
          { s0 with registers := s0.registers.setD 15 p.1, vram := p.2 } = some
        { s0 with
            registers := s0.registers.setD 15
              ((l.foldl (pureBit (s0.registers.getD x 0)
                (s0.memory.getD (s0.i + byte) 0) dy) p).1),
            vram := (l.foldl (pureBit (s0.registers.getD x 0)
                (s0.memory.getD (s0.i + byte) 0) dy) p).2 }
  | [], s0, p, hsz, hmem, hvs => by simp
  | t :: l, s0, p, hsz, hmem, hvs => by
    have hstep := drawBit_step x dy byte
      { s0 with registers := s0.registers.setD 15 p.1, vram := p.2 } t hx
      (by simp [hsz]) hmem hdy hvs
    have hnext := drawBits_lift x byte dy hx hx15 hdy l s0
      (pureBit (s0.registers.getD x 0) (s0.memory.getD (s0.i + byte) 0) dy p t)
      hsz hmem (vshape_vset hvs _ _ _)
    have hrx : (s0.registers.setD 15 p.1).getD x 0 = s0.registers.getD x 0 :=
      getD_setD_ne _ (by omega) _ _
    have hvf : (s0.registers.setD 15 p.1).getD 15 0 = p.1 :=
      getD_setD_eq _ (by omega) _ _
    rw [List.foldlM_cons, List.foldl_cons]
    rw [hstep, Option.bind_eq_bind, Option.some_bind]
    simp only [hrx, hvf, setD_setD]
    exact hnext

theorem vshape_pureBit_fold :
    ∀ (l : List Nat) (rx mb dy : Nat) (p : Nat × Array (Array Nat)),
      VShape p.2 → VShape ((l.foldl (pureBit rx mb dy) p).2)
  | [], _, _, _, _, h => h
  | t :: l, rx, mb, dy, p, h => by
    rw [List.foldl_cons]
    exact vshape_pureBit_fold l rx mb dy _ (vshape_vset h _ _ _)

/-- The outer loop of `opdxyn` over any list of sprite bytes is the lift of the
`pureRow` fold. -/
theorem drawRows_lift (x y : Nat) (hx : x < 16) (hy : y < 16)
    (hx15 : x ≠ 15) (hy15 : y ≠ 15) :
    ∀ (l : List Nat) (s0 : Processor) (p : Nat × Array (Array Nat)),
      s0.registers.size = 16 → (∀ b ∈ l, s0.i + b < s0.memory.size) → VShape p.2 →
      l.foldlM (drawByte x y)
          { s0 with registers := s0.registers.setD 15 p.1, vram := p.2 } = some
        { s0 with
            registers := s0.registers.setD 15
              ((l.foldl (fun q b => pureRow (s0.registers.getD x 0)
                  (s0.memory.getD (s0.i + b) 0) (dyOf (s0.registers.getD y 0) b) q) p).1),
            vram := (l.foldl (fun q b => pureRow (s0.registers.getD x 0)
                  (s0.memory.getD (s0.i + b) 0) (dyOf (s0.registers.getD y 0) b) q) p).2 }
  | [], s0, p, hsz, hmem, hvs => by simp
  | b :: l, s0, p, hsz, hmem, hvs => by
    have hry : (s0.registers.setD 15 p.1).getD y 0 = s0.registers.getD y 0 :=
      getD_setD_ne _ (by omega) _ _
    have haggY : aget (s0.registers.setD 15 p.1) y = some (s0.registers.getD y 0) := by
      rw [aget_getD (show y < (s0.registers.setD 15 p.1).size from by
        rw [Array.size_setD, hsz]; omega) 0, hry]
    have hbits := drawBits_lift x b ((s0.registers.getD y 0 + b) % 32) hx hx15
      (by omega) (List.range 8) s0 p hsz (hmem b (by simp)) hvs
    have hnext := drawRows_lift x y hx hy hx15 hy15 l s0
      (pureRow (s0.registers.getD x 0) (s0.memory.getD (s0.i + b) 0)
        (dyOf (s0.registers.getD y 0) b) p)
      hsz (fun b' hb' => hmem b' (List.mem_cons_of_mem _ hb'))
      (vshape_pureBit_fold (List.range 8) (s0.registers.getD x 0)
        (s0.memory.getD (s0.i + b) 0) (dyOf (s0.registers.getD y 0) b) p hvs)
    rw [List.foldlM_cons, List.foldl_cons]
    simp only [drawByte, Option.bind_eq_bind, haggY, Option.some_bind]
    rw [hbits, Option.some_bind]
    exact hnext

/-- `opdxyn` is the lift of the pure draw model: it clears `VF`, folds
`pureRow` over the `n` sprite bytes, marks the vram changed, and advances PC. -/
theorem opdxyn_lift (s : Processor) (x y n : Nat)
    (hx : x < 16) (hy : y < 16) (hx15 : x ≠ 15) (hy15 : y ≠ 15)
    (hsz : s.registers.size = 16)
    (hmem : ∀ b, b < n → s.i + b < s.memory.size)
    (hvs : VShape s.vram) :
    opdxyn s x y n = some (pc_next { s with
      registers := s.registers.setD 15
        (((List.range n).foldl (fun q b => pureRow (s.registers.getD x 0)
            (s.memory.getD (s.i + b) 0) (dyOf (s.registers.getD y 0) b) q) (0, s.vram)).1),
      vram := ((List.range n).foldl (fun q b => pureRow (s.registers.getD x 0)
            (s.memory.getD (s.i + b) 0) (dyOf (s.registers.getD y 0) b) q) (0, s.vram)).2,
      vram_changed := true }) := by
  have hrows := drawRows_lift x y hx hy hx15 hy15 (List.range n) s (0, s.vram)
    hsz (fun b hb => hmem b (List.mem_range.mp hb)) hvs
  simp only [opdxyn, Option.bind_eq_bind,
    aset_lt (show (15 : Nat) < s.registers.size by omega), Option.some_bind]
  rw [show ({ s with registers := s.registers.setD 15 0 } : Processor)
      = { s with registers := s.registers.setD 15 (0, s.vram).1, vram := (0, s.vram).2 }
    from rfl]
  rw [hrows, Option.some_bind]
  rfl

theorem foldl_congr_fun : ∀ (l : List α) (f g : β → α → β) (a : β),
    (∀ acc, ∀ t ∈ l, f acc t = g acc t) → l.foldl f a = l.foldl g a
  | [], _, _, _, _ => rfl
  | t :: l, f, g, a, h => by
    rw [List.foldl_cons, List.foldl_cons, h a t (by simp)]
    exact foldl_congr_fun l f g _ (fun acc t' ht' => h acc t' (List.mem_cons_of_mem _ ht'))

theorem mem_range'_bounds {t s n : Nat} (h : t ∈ List.range' s n) : s ≤ t ∧ t < s + n := by
  rw [List.mem_range'] at h
  obtain ⟨i, hi, rfl⟩ := h
  omega

/-- Full characterization of one row of the pure draw model over the bit range
`[t₀, t₀ + k)`: cells outside the touched columns of row `dy` are unchanged,
each touched cell is XORed with its color, and the accumulator ORs in the
collision bits computed against the pre-row cells. -/
theorem pureRow_spec (rx mb dy : Nat) (hdy : dy < 32) :
    ∀ (k t₀ : Nat), t₀ + k ≤ 8 →
    ∀ (p : Nat × Array (Array Nat)), VShape p.2 →
      (∀ r c, r < 32 → c < 64 →
        (r ≠ dy ∨ ∀ t, t₀ ≤ t → t < t₀ + k → c ≠ dxOf rx t) →
        cellv ((List.range' t₀ k).foldl (pureBit rx mb dy) p).2 r c = cellv p.2 r c) ∧
      (∀ t, t₀ ≤ t → t < t₀ + k →
        cellv ((List.range' t₀ k).foldl (pureBit rx mb dy) p).2 dy (dxOf rx t)
          = cellv p.2 dy (dxOf rx t) ^^^ colorOf mb t) ∧
      ((List.range' t₀ k).foldl (pureBit rx mb dy) p).1
        = (List.range' t₀ k).foldl
            (fun a t => a ||| (colorOf mb t &&& cellv p.2 dy (dxOf rx t))) p.1
  | 0, t₀, hk, p, hvs => by
    refine ⟨fun r c _ _ _ => by simp, fun t ht1 ht2 => by omega, by simp⟩
  | k+1, t₀, hk, p, hvs => by
    have h8 : t₀ < 8 := by omega
    have hp2 : (pureBit rx mb dy p t₀).2
        = vset p.2 dy (dxOf rx t₀) (cellv p.2 dy (dxOf rx t₀) ^^^ colorOf mb t₀) := rfl
    have hp1 : (pureBit rx mb dy p t₀).1
        = p.1 ||| (colorOf mb t₀ &&& cellv p.2 dy (dxOf rx t₀)) := rfl
    have hvs1 : VShape (pureBit rx mb dy p t₀).2 := by
      rw [hp2]; exact vshape_vset hvs _ _ _
    obtain ⟨ihA, ihB, ihC⟩ := pureRow_spec rx mb dy hdy k (t₀ + 1) (by omega)
      (pureBit rx mb dy p t₀) hvs1
    refine ⟨?_, ?_, ?_⟩
    · intro r c hr hc hcond
      have hcond' : r ≠ dy ∨ ∀ t, t₀ + 1 ≤ t → t < t₀ + 1 + k → c ≠ dxOf rx t := by
        rcases hcond with h | h
        · exact Or.inl h
        · exact Or.inr fun t ht1 ht2 => h t (by omega) (by omega)
      rw [List.range'_succ, List.foldl_cons, ihA r c hr hc hcond', hp2]
      refine cellv_vset_ne _ ?_ _
      rcases hcond with h | h
      · exact Or.inl (Ne.symm h)
      · exact Or.inr (Ne.symm (h t₀ (by omega) (by omega)))
    · intro t ht1 ht2
      rw [List.range'_succ, List.foldl_cons]
      by_cases hT : t = t₀
      · subst hT
        rw [ihA dy (dxOf rx t) hdy (dxOf_lt rx t)
          (Or.inr fun t' ht1' ht2' => dxOf_ne rx (by omega) (by omega) (by omega))]
        rw [hp2, cellv_vset_eq hvs hdy (dxOf_lt rx t)]
      · rw [ihB t (by omega) (by omega), hp2]
        rw [cellv_vset_ne _ (Or.inr (dxOf_ne rx (by omega) (by omega) (by omega))) _]
    · have hfun : ∀ (acc : Nat), ∀ t ∈ List.range' (t₀ + 1) k,
          acc ||| (colorOf mb t &&& cellv (pureBit rx mb dy p t₀).2 dy (dxOf rx t))
            = acc ||| (colorOf mb t &&& cellv p.2 dy (dxOf rx t)) := by
        intro acc t ht
        have hb := mem_range'_bounds ht
        rw [hp2, cellv_vset_ne _ (Or.inr (dxOf_ne rx h8 (by omega) (by omega))) _]
      rw [List.range'_succ, List.foldl_cons, List.foldl_cons, ihC,
        foldl_congr_fun _ _ _ _ hfun, hp1]

/-- Full characterization of the pure draw model over the byte range
`[b₀, b₀ + k)` of a sprite of height `n ≤ 32`: rows other than the touched ones
(and untouched columns within them) keep their cells, every target cell is
XORed with its sprite bit, and the accumulator ORs in all collision bits
computed against the pre-draw cells. -/
theorem pureRows_spec (rx ry : Nat) (mbf : Nat → Nat) (n : Nat) (hn : n ≤ 32) :
    ∀ (k b₀ : Nat), b₀ + k ≤ n →
    ∀ (p : Nat × Array (Array Nat)), VShape p.2 →
      (∀ r c, r < 32 → c < 64 →
        (∀ b, b₀ ≤ b → b < b₀ + k → r ≠ dyOf ry b ∨ ∀ t, t < 8 → c ≠ dxOf rx t) →
        cellv ((List.range' b₀ k).foldl
            (fun q b => pureRow rx (mbf b) (dyOf ry b) q) p).2 r c = cellv p.2 r c) ∧
      (∀ b t, b₀ ≤ b → b < b₀ + k → t < 8 →
        cellv ((List.range' b₀ k).foldl
            (fun q b => pureRow rx (mbf b) (dyOf ry b) q) p).2 (dyOf ry b) (dxOf rx t)
          = cellv p.2 (dyOf ry b) (dxOf rx t) ^^^ colorOf (mbf b) t) ∧
      ((List.range' b₀ k).foldl (fun q b => pureRow rx (mbf b) (dyOf ry b) q) p).1
        = (List.range' b₀ k).foldl
            (fun a b => (List.range 8).foldl
              (fun a2 t => a2 ||| (colorOf (mbf b) t &&& cellv p.2 (dyOf ry b) (dxOf rx t))) a)
            p.1
  | 0, b₀, hk, p, hvs =>
    ⟨fun r c _ _ _ => by simp, fun b t hb1 hb2 _ => by omega, by simp⟩
  | k+1, b₀, hk, p, hvs => by
    have hb32 : b₀ < 32 := by omega
    have hrow0 : pureRow rx (mbf b₀) (dyOf ry b₀) p
        = (List.range' 0 8).foldl (pureBit rx (mbf b₀) (dyOf ry b₀)) p := by
      simp only [pureRow, List.range_eq_range']
    obtain ⟨rowA, rowB, rowC⟩ := pureRow_spec rx (mbf b₀) (dyOf ry b₀)
      (dyOf_lt ry b₀) 8 0 (by omega) p hvs
    have hvs1 : VShape (pureRow rx (mbf b₀) (dyOf ry b₀) p).2 :=
      vshape_pureBit_fold (List.range 8) _ _ _ p hvs
    obtain ⟨ihA, ihB, ihC⟩ := pureRows_spec rx ry mbf n hn k (b₀ + 1) (by omega)
      (pureRow rx (mbf b₀) (dyOf ry b₀) p) hvs1
    refine ⟨?_, ?_, ?_⟩
    · intro r c hr hc hcond
      have hcond' : ∀ b, b₀ + 1 ≤ b → b < b₀ + 1 + k →
          r ≠ dyOf ry b ∨ ∀ t, t < 8 → c ≠ dxOf rx t :=
        fun b hb1 hb2 => hcond b (by omega) (by omega)
      rw [List.range'_succ, List.foldl_cons, ihA r c hr hc hcond']
      rw [hrow0]
      refine rowA r c hr hc ?_
      rcases hcond b₀ (by omega) (by omega) with h | h
      · exact Or.inl h
      · exact Or.inr fun t _ ht2 => h t (by omega)
    · intro b t hb1 hb2 ht
      rw [List.range'_succ, List.foldl_cons]
      by_cases hB : b = b₀
      · subst hB
        rw [ihA (dyOf ry b) (dxOf rx t) (dyOf_lt ry b) (dxOf_lt rx t)
          (fun b' hb1' hb2' => Or.inl (dyOf_ne ry (by omega) (by omega) (by omega)))]
        rw [hrow0, rowB t (by omega) (by omega)]
      · rw [ihB b t (by omega) (by omega) ht]
        rw [hrow0, rowA (dyOf ry b) (dxOf rx t) (dyOf_lt ry b) (dxOf_lt rx t)
          (Or.inl (dyOf_ne ry (by omega) (by omega) (by omega)))]
    · have hfun : ∀ (acc : Nat), ∀ b ∈ List.range' (b₀ + 1) k,
          (List.range 8).foldl (fun a2 t => a2 |||
            (colorOf (mbf b) t &&& cellv (pureRow rx (mbf b₀) (dyOf ry b₀) p).2
              (dyOf ry b) (dxOf rx t))) acc
          = (List.range 8).foldl (fun a2 t => a2 |||
            (colorOf (mbf b) t &&& cellv p.2 (dyOf ry b) (dxOf rx t))) acc := by
        intro acc b hbmem
        have hb := mem_range'_bounds hbmem
        refine foldl_congr_fun _ _ _ _ (fun acc2 t ht => ?_)
        have ht8 : t < 8 := List.mem_range.mp ht
        rw [hrow0, rowA (dyOf ry b) (dxOf rx t) (dyOf_lt ry b) (dxOf_lt rx t)
          (Or.inl (dyOf_ne ry (by omega) (by omega) (by omega)))]
      rw [List.range'_succ, List.foldl_cons, List.foldl_cons, ihC,
        foldl_congr_fun _ _ _ _ hfun]
      rw [hrow0, rowC]
      simp only [List.range_eq_range']

theorem or_le_one {a b : Nat} (ha : a ≤ 1) (hb : b ≤ 1) : a ||| b ≤ 1 := by
  interval_cases a <;> interval_cases b <;> decide

theorem colorOf_le_one (mb t : Nat) : colorOf mb t ≤ 1 := Nat.and_le_right

theorem foldl_or_le_one (g : Nat → Nat) :
    ∀ (l : List Nat) (a : Nat), a ≤ 1 → (∀ t ∈ l, g t ≤ 1) →
      l.foldl (fun acc t => acc ||| g t) a ≤ 1
  | [], _, ha, _ => ha
  | t :: l, a, ha, hg => by
    rw [List.foldl_cons]
    exact foldl_or_le_one g l _ (or_le_one ha (hg t (by simp)))
      (fun t' ht' => hg t' (List.mem_cons_of_mem _ ht'))

theorem foldl_or_keep_one (g : Nat → Nat) :
    ∀ (l : List Nat) (a : Nat), a = 1 → (∀ t ∈ l, g t ≤ 1) →
      l.foldl (fun acc t => acc ||| g t) a = 1
  | [], _, ha, _ => ha
  | t :: l, a, ha, hg => by
    subst ha
    rw [List.foldl_cons]
    have h1 : (1 : Nat) ||| g t = 1 := by
      rcases Nat.le_one_iff_eq_zero_or_eq_one.mp (hg t (by simp)) with h | h <;>
        rw [h] <;> decide
    rw [h1]
    exact foldl_or_keep_one g l 1 rfl (fun t' ht' => hg t' (List.mem_cons_of_mem _ ht'))

theorem foldl_or_exists_one (g : Nat → Nat) :
    ∀ (l : List Nat) (a : Nat), a ≤ 1 → (∀ t ∈ l, g t ≤ 1) →
      (∃ t, t ∈ l ∧ g t = 1) → l.foldl (fun acc t => acc ||| g t) a = 1
  | [], _, _, _, hex => by simp at hex
  | t :: l, a, ha, hg, hex => by
    rw [List.foldl_cons]
    by_cases hgt : g t = 1
    · refine foldl_or_keep_one g l _ ?_ (fun t' ht' => hg t' (List.mem_cons_of_mem _ ht'))
      rw [hgt]
      rcases Nat.le_one_iff_eq_zero_or_eq_one.mp ha with h | h <;> rw [h] <;> decide
    · obtain ⟨t', ht', hgt'⟩ := hex
      rcases List.mem_cons.mp ht' with h | h
      · exact absurd (h ▸ hgt') hgt
      · exact foldl_or_exists_one g l _ (or_le_one ha (hg t (by simp)))
          (fun u hu => hg u (List.mem_cons_of_mem _ hu)) ⟨t', h, hgt'⟩

theorem foldl_or_all_zero (g : Nat → Nat) :
    ∀ (l : List Nat) (a : Nat), (∀ t ∈ l, g t = 0) →
      l.foldl (fun acc t => acc ||| g t) a = a
  | [], _, _ => rfl
  | t :: l, a, hg => by
    rw [List.foldl_cons, hg t (by simp), Nat.or_zero]
    exact foldl_or_all_zero g l a (fun t' ht' => hg t' (List.mem_cons_of_mem _ ht'))

theorem foldl_nested_keep_one (g : Nat → Nat → Nat) (hg : ∀ b t, g b t ≤ 1) :
    ∀ (l : List Nat) (a : Nat), a = 1 →
      l.foldl (fun acc b => (List.range 8).foldl (fun a2 t => a2 ||| g b t) acc) a = 1
  | [], _, ha => ha
  | b :: l, a, ha => by
    rw [List.foldl_cons]
    exact foldl_nested_keep_one g hg l _
      (foldl_or_keep_one _ (List.range 8) a ha (fun t _ => hg b t))

theorem foldl_nested_exists_one (g : Nat → Nat → Nat) (hg : ∀ b t, g b t ≤ 1) :
    ∀ (l : List Nat) (a : Nat), a ≤ 1 → (∃ b, b ∈ l ∧ ∃ t, t < 8 ∧ g b t = 1) →
      l.foldl (fun acc b => (List.range 8).foldl (fun a2 t => a2 ||| g b t) acc) a = 1
  | [], _, _, hex => by simp at hex
  | b :: l, a, ha, hex => by
    rw [List.foldl_cons]
    obtain ⟨b', hb', t', ht', hg'⟩ := hex
    rcases List.mem_cons.mp hb' with h | h
    · subst h
      exact foldl_nested_keep_one g hg l _
        (foldl_or_exists_one _ (List.range 8) a ha (fun t _ => hg b' t)
          ⟨t', List.mem_range.mpr ht', hg'⟩)
    · exact foldl_nested_exists_one g hg l _
        (foldl_or_le_one _ (List.range 8) a ha (fun t _ => hg b t)) ⟨b', h, t', ht', hg'⟩

theorem foldl_nested_all_zero (g : Nat → Nat → Nat) :
    ∀ (l : List Nat) (a : Nat), (∀ b ∈ l, ∀ t, t < 8 → g b t = 0) →
      l.foldl (fun acc b => (List.range 8).foldl (fun a2 t => a2 ||| g b t) acc) a = a
  | [], _, _ => rfl
  | b :: l, a, hg => by
    rw [List.foldl_cons, foldl_or_all_zero _ (List.range 8) a
      (fun t ht => hg b (by simp) t (List.mem_range.mp ht))]
    exact foldl_nested_all_zero g l a (fun b' hb' => hg b' (List.mem_cons_of_mem _ hb'))

set_option maxRecDepth 4000 in
/-- A nonzero byte has some set bit among its eight low bits. -/
theorem byte_nonzero_color : ∀ mb, mb < 256 → mb ≠ 0 → ∃ t, t < 8 ∧ colorOf mb t = 1 := by
  decide

theorem vshape_pureRow_fold (rx ry : Nat) (mbf : Nat → Nat) :
    ∀ (l : List Nat) (p : Nat × Array (Array Nat)),
      VShape p.2 → VShape ((l.foldl (fun q b => pureRow rx (mbf b) (dyOf ry b) q) p).2)
  | [], _, h => h
  | b :: l, p, h => by
    rw [List.foldl_cons]
    exact vshape_pureRow_fold rx ry mbf l _
      (vshape_pureBit_fold (List.range 8) _ _ _ p h)

/-- C6 (amended): for register indices `x, y` other than `0xF` (the flag
register doubles as a coordinate source otherwise), sprite height `1 ≤ n ≤ 32`
(the dispatcher's `n` is a nibble), an in-bounds sprite `memory[I..I+n)` of
bytes `< 256` that is not all zero, and a framebuffer in which every cell the
sprite maps to is off, drawing twice with the same arguments restores every
framebuffer cell to its value before the first draw, and the second draw sets
`VF` to 1. -/
theorem c6_draw_twice (s : Processor) (x y n rx ry : Nat)
    (hx : x < 16) (hy : y < 16) (hx15 : x ≠ 15) (hy15 : y ≠ 15)
    (hsz : s.registers.size = 16)
    (hrx : s.registers.getD x 0 = rx) (hry : s.registers.getD y 0 = ry)
    (hmemsz : s.memory.size = 4096) (hin : s.i + n ≤ 4096) (hn32 : n ≤ 32)
    (hvs : VShape s.vram)
    (hnz : ∃ b, b < n ∧ s.memory.getD (s.i + b) 0 ≠ 0)
    (hb8 : ∀ b, b < n → s.memory.getD (s.i + b) 0 < 256)
    (hoff : ∀ b, b < n → ∀ t, t < 8 → cellv s.vram (dyOf ry b) (dxOf rx t) = 0) :
    ∃ s1 s2, opdxyn s x y n = some s1 ∧ opdxyn s1 x y n = some s2 ∧
      (∀ r c, r < 32 → c < 64 → cellv s2.vram r c = cellv s.vram r c) ∧
      s2.registers.getD 15 0 = 1 := by
  subst hrx
  subst hry
  have hmem : ∀ b, b < n → s.i + b < s.memory.size := fun b hb => by omega
  have hlift1 := opdxyn_lift s x y n hx hy hx15 hy15 hsz hmem hvs
  rw [List.range_eq_range'] at hlift1
  simp only [pc_next] at hlift1
  obtain ⟨A1, B1, C1⟩ := pureRows_spec (s.registers.getD x 0) (s.registers.getD y 0)
    (fun b => s.memory.getD (s.i + b) 0) n hn32 n 0 (by omega) (0, s.vram) hvs
  simp only [] at A1 B1 C1
  have cells1 : ∀ b t, b < n → t < 8 →
      cellv ((List.range' 0 n).foldl (fun q b => pureRow (s.registers.getD x 0)
          (s.memory.getD (s.i + b) 0) (dyOf (s.registers.getD y 0) b) q) (0, s.vram)).2
        (dyOf (s.registers.getD y 0) b) (dxOf (s.registers.getD x 0) t)
      = colorOf (s.memory.getD (s.i + b) 0) t := by
    intro b t hb ht
    rw [B1 b t (by omega) (by omega) ht, hoff b hb t ht, Nat.zero_xor]
  have shape1 : VShape ((List.range' 0 n).foldl (fun q b => pureRow (s.registers.getD x 0)
      (s.memory.getD (s.i + b) 0) (dyOf (s.registers.getD y 0) b) q) (0, s.vram)).2 :=
    vshape_pureRow_fold _ _ _ _ _ hvs
  -- the state after the first draw
  have hlift2 := opdxyn_lift
    { s with
        registers := s.registers.setD 15
          (((List.range' 0 n).foldl (fun q b => pureRow (s.registers.getD x 0)
            (s.memory.getD (s.i + b) 0) (dyOf (s.registers.getD y 0) b) q) (0, s.vram)).1),
        vram := ((List.range' 0 n).foldl (fun q b => pureRow (s.registers.getD x 0)
            (s.memory.getD (s.i + b) 0) (dyOf (s.registers.getD y 0) b) q) (0, s.vram)).2,
        vram_changed := true, pc := s.pc + 2 }
    x y n hx hy hx15 hy15 (by simp [hsz]) (fun b hb => by simp; omega)
    shape1
  rw [List.range_eq_range'] at hlift2
  simp only [pc_next] at hlift2
  rw [getD_setD_ne _ (by omega : (15 : Nat) ≠ x) _ _,
    getD_setD_ne _ (by omega : (15 : Nat) ≠ y) _ _] at hlift2
  obtain ⟨A2, B2, C2⟩ := pureRows_spec (s.registers.getD x 0) (s.registers.getD y 0)
    (fun b => s.memory.getD (s.i + b) 0) n hn32 n 0 (by omega)
    (0, ((List.range' 0 n).foldl (fun q b => pureRow (s.registers.getD x 0)
        (s.memory.getD (s.i + b) 0) (dyOf (s.registers.getD y 0) b) q) (0, s.vram)).2)
    shape1
  simp only [] at A2 B2 C2
  refine ⟨_, _, hlift1, hlift2, ?_, ?_⟩
  · -- every cell is restored
    intro r c hr hc
    simp only []
    by_cases htarget : ∃ b, b < n ∧ ∃ t, t < 8 ∧
        r = dyOf (s.registers.getD y 0) b ∧ c = dxOf (s.registers.getD x 0) t
    · obtain ⟨b, hb, t, ht, hrr, hcc⟩ := htarget
      subst hrr
      subst hcc
      rw [B2 b t (by omega) (by omega) ht, cells1 b t hb ht, Nat.xor_self,
        hoff b hb t ht]
    · have hcond : ∀ b, 0 ≤ b → b < 0 + n →
          r ≠ dyOf (s.registers.getD y 0) b ∨
            ∀ t, t < 8 → c ≠ dxOf (s.registers.getD x 0) t := by
        intro b _ hb
        by_cases hrr : r = dyOf (s.registers.getD y 0) b
        · refine Or.inr fun t ht hcc => htarget ⟨b, by omega, t, ht, hrr, hcc⟩
        · exact Or.inl hrr
      rw [A2 r c hr hc hcond, A1 r c hr hc hcond]
  · -- the second draw reports a collision
    simp only []
    rw [getD_setD_eq _ (by simp [hsz]) _ _]
    rw [C2]
    have hcongr : ∀ (acc : Nat), ∀ b ∈ List.range' 0 n,
        (List.range 8).foldl (fun a2 t => a2 |||
          (colorOf (s.memory.getD (s.i + b) 0) t &&&
            cellv ((List.range' 0 n).foldl (fun q b => pureRow (s.registers.getD x 0)
                (s.memory.getD (s.i + b) 0) (dyOf (s.registers.getD y 0) b) q) (0, s.vram)).2
              (dyOf (s.registers.getD y 0) b) (dxOf (s.registers.getD x 0) t))) acc
        = (List.range 8).foldl (fun a2 t => a2 |||
          (colorOf (s.memory.getD (s.i + b) 0) t &&&
            colorOf (s.memory.getD (s.i + b) 0) t)) acc := by
      intro acc b hb
      have hbb := mem_range'_bounds hb
      refine foldl_congr_fun _ _ _ _ (fun a2 t ht => ?_)
      rw [cells1 b t (by omega) (List.mem_range.mp ht)]
    rw [foldl_congr_fun _ _ _ _ hcongr]
    obtain ⟨b0, hb0, hnz0⟩ := hnz
    obtain ⟨t0, ht0, hc0⟩ := byte_nonzero_color _ (hb8 b0 hb0) hnz0
    refine foldl_nested_exists_one _
      (fun b t => le_trans Nat.and_le_right (colorOf_le_one _ _)) _ _ (by omega)
      ⟨b0, List.mem_range'.mpr ⟨b0, hb0, by omega⟩, t0, ht0, ?_⟩
    rw [hc0]
    decide

/-- The C6 witness state: sprite byte `0x80` at address 0 with `I = 0`, all
framebuffer cells off. -/
def CW6 : Processor := { P0 with memory := (Array.mkArray 4096 0).setD 0 0x80 }

/-- C6 witness: the double draw of the one-byte sprite `0x80` at coordinates
(0, 0) on an all-off framebuffer. -/
theorem c6_witness :
    ∃ s1 s2, opdxyn CW6 0 1 1 = some s1 ∧ opdxyn s1 0 1 1 = some s2 ∧
      (∀ r c, r < 32 → c < 64 → cellv s2.vram r c = cellv CW6.vram r c) ∧
      s2.registers.getD 15 0 = 1 :=
  c6_draw_twice CW6 0 1 1 0 0 (by decide) (by decide) (by decide) (by decide)
    (by simp [CW6, P0]) (by decide) (by decide) (by simp [CW6, P0]) (by decide)
    (by decide) (by decide)
    ⟨0, by decide, by simp [CW6, P0, getD_setD_eq]⟩
    (by
      intro b hb
      interval_cases b
      simp [CW6, P0, getD_setD_eq])
    (by decide)

/-- The C6 counterexample state: like `CW6` but the sprite's single target
pixel starts ON. -/
def CCX6 : Processor :=
  { P0 with memory := (Array.mkArray 4096 0).setD 0 0x80,
            vram := (Array.mkArray 32 (Array.mkArray 64 0)).setD 0
              ((Array.mkArray 64 0).setD 0 1) }

/-- C6 counterexample: drawing the same non-zero sprite (`0x80` at (0,0))
twice over a framebuffer whose target pixel starts ON ends with `VF = 0` after
the second draw, not 1 as claimed: the first draw turns the pixel off, so the
second sees only off pixels and reports no collision. -/
theorem c6_counterexample :
    ((opdxyn CCX6 0 1 1).bind (fun s1 => opdxyn s1 0 1 1)).map
        (fun s2 => s2.registers.getD 15 99) = some 0 ∧ (0 : Nat) ≠ 1 := by
  refine ⟨?_, by decide⟩
  have hmb : CCX6.memory.getD (CCX6.i + 0) 0 = 0x80 := by
    simp [CCX6, P0, getD_setD_eq]
  have hsz : CCX6.registers.size = 16 := by simp [CCX6, P0]
  have hmem : ∀ b, b < 1 → CCX6.i + b < CCX6.memory.size := by
    intro b hb
    interval_cases b
    simp [CCX6, P0]
  have hvs : VShape CCX6.vram := by decide
  have hrx0 : CCX6.registers.getD 0 0 = 0 := by decide
  have hry0 : CCX6.registers.getD 1 0 = 0 := by decide
  have hg0 : ∀ v : Nat, (CCX6.registers.setD 15 v).getD 0 0 = 0 := fun v => by
    rw [getD_setD_ne _ (by omega) _ _]
    decide
  have hg1 : ∀ v : Nat, (CCX6.registers.setD 15 v).getD 1 0 = 0 := fun v => by
    rw [getD_setD_ne _ (by omega) _ _]
    decide
  rw [opdxyn_lift CCX6 0 1 1 (by decide) (by decide) (by decide) (by decide) hsz hmem hvs,
    Option.some_bind]
  rw [opdxyn_lift _ 0 1 1 (by decide) (by decide) (by decide) (by decide)
    ?hsz2 ?hmem2 ?hvs2]
  case hsz2 => simp [pc_next, hsz]
  case hmem2 =>
    intro b hb
    interval_cases b
    simpa [pc_next] using hmem 0 (by omega)
  case hvs2 =>
    simp only [pc_next]
    exact vshape_pureRow_fold _ _ _ _ _ hvs
  simp only [Option.map_some', pc_next, setD_setD]
  rw [getD_setD_eq _ (by omega) _ _]
  rw [show (List.range 1) = [0] from rfl]
  simp only [List.foldl_cons, List.foldl_nil]
  rw [hmb, hrx0, hry0, hg0, hg1]
  decide

/-! ### C10 — memory accesses of the draw instruction -/

/-- One drawn bit fails (Rust panics) as soon as the sprite byte address
`i + byte` is out of memory bounds. -/
theorem drawBit_fail (x dy b : Nat) (s : Processor) (t : Nat)
    (hx : x < 16) (hsz : s.registers.size = 16)
    (hoob : s.memory.size ≤ s.i + b) :
    drawBit x dy b s t = none := by
  simp only [drawBit, Option.bind_eq_bind,
    aget_getD (show x < s.registers.size by omega) 0, Option.some_bind]
  rw [show aget s.memory (s.i + b) = none from by
    rw [aget]; exact Array.getElem?_len_le _ hoob]
  rfl

/-- One sprite row fails when its byte address is out of bounds: the first bit
already reads the sprite byte. -/
theorem drawByte_fail (x y : Nat) (s : Processor) (b : Nat)
    (hx : x < 16) (hy : y < 16) (hsz : s.registers.size = 16)
    (hoob : s.memory.size ≤ s.i + b) :
    drawByte x y s b = none := by
  simp only [drawByte, Option.bind_eq_bind,
    aget_getD (show y < s.registers.size by omega) 0, Option.some_bind]
  rw [List.range_eq_range', List.range'_succ, List.foldlM_cons,
    drawBit_fail x _ b s 0 hx hsz hoob]
  rfl

/-- One drawn bit always succeeds when the sprite byte address is in bounds,
whatever the register contents: the row and cell indices are taken modulo the
framebuffer dimensions and only register 15 is written. -/
theorem drawBit_progress (x dy byte : Nat) (s : Processor) (t : Nat)
    (hx : x < 16) (hsz : s.registers.size = 16) (hdy : dy < 32)
    (hmem : s.i + byte < s.memory.size) (hvs : VShape s.vram) :
    ∃ s', drawBit x dy byte s t = some s' ∧ s'.registers.size = 16 ∧
      VShape s'.vram ∧ s'.memory = s.memory ∧ s'.i = s.i := by
  refine ⟨_, drawBit_step x dy byte s t hx hsz hmem hdy hvs, ?_, ?_, rfl, rfl⟩
  · simp [hsz]
  · exact vshape_vset hvs _ _ _

theorem drawBits_progress (x dy byte : Nat) (hx : x < 16) (hdy : dy < 32) :
    ∀ (l : List Nat) (s : Processor), s.registers.size = 16 →
      s.i + byte < s.memory.size → VShape s.vram →
      ∃ s', l.foldlM (drawBit x dy byte) s = some s' ∧ s'.registers.size = 16 ∧
        VShape s'.vram ∧ s'.memory = s.memory ∧ s'.i = s.i
  | [], s, hsz, _, hvs => ⟨s, by simp, hsz, hvs, rfl, rfl⟩
  | t :: l, s, hsz, hmem, hvs => by
    obtain ⟨s1, h1, hsz1, hvs1, hm1, hi1⟩ :=
      drawBit_progress x dy byte s t hx hsz hdy hmem hvs
    obtain ⟨s2, h2, hsz2, hvs2, hm2, hi2⟩ := drawBits_progress x dy byte hx hdy l s1 hsz1
      (by rw [hm1, hi1]; exact hmem) hvs1
    exact ⟨s2,
      by rw [List.foldlM_cons, h1, Option.bind_eq_bind, Option.some_bind]; exact h2,
      hsz2, hvs2, by rw [hm2, hm1], by rw [hi2, hi1]⟩

theorem drawByte_progress (x y : Nat) (s : Processor) (b : Nat)
    (hx : x < 16) (hy : y < 16) (hsz : s.registers.size = 16)
    (hmem : s.i + b < s.memory.size) (hvs : VShape s.vram) :
    ∃ s', drawByte x y s b = some s' ∧ s'.registers.size = 16 ∧
      VShape s'.vram ∧ s'.memory = s.memory ∧ s'.i = s.i := by
  obtain ⟨s', h', hsz', hvs', hm', hi'⟩ := drawBits_progress x
    ((s.registers.getD y 0 + b) % 32) b hx (by omega) (List.range 8) s hsz hmem hvs
  refine ⟨s', ?_, hsz', hvs', hm', hi'⟩
  simp only [drawByte, Option.bind_eq_bind,
    aget_getD (show y < s.registers.size by omega) 0, Option.some_bind]
  exact h'

theorem drawRows_progress (x y : Nat) (hx : x < 16) (hy : y < 16) :
    ∀ (l : List Nat) (s : Processor), s.registers.size = 16 →
      (∀ b ∈ l, s.i + b < s.memory.size) → VShape s.vram →
      ∃ s', l.foldlM (drawByte x y) s = some s' ∧ s'.registers.size = 16 ∧
        VShape s'.vram ∧ s'.memory = s.memory ∧ s'.i = s.i
  | [], s, hsz, _, hvs => ⟨s, by simp, hsz, hvs, rfl, rfl⟩
  | b :: l, s, hsz, hmem, hvs => by
    obtain ⟨s1, h1, hsz1, hvs1, hm1, hi1⟩ := drawByte_progress x y s b hx hy hsz
      (hmem b (by simp)) hvs
    obtain ⟨s2, h2, hsz2, hvs2, hm2, hi2⟩ := drawRows_progress x y hx hy l s1 hsz1
      (fun b' hb' => by rw [hm1, hi1]; exact hmem b' (List.mem_cons_of_mem _ hb')) hvs1
    exact ⟨s2,
      by rw [List.foldlM_cons, h1, Option.bind_eq_bind, Option.some_bind]; exact h2,
      hsz2, hvs2, by rw [hm2, hm1], by rw [hi2, hi1]⟩

/-- C10 (amended: for sprite height `n ≥ 1`): the draw instruction reads
memory exactly at `I .. I+n-1`, unwrapped and unclamped — for every pair of
register nibbles `x, y` it completes without any out-of-bounds access iff
`I + n ≤ 4096`, and with `I + n > 4096` the read of the first sprite byte at
an address `≥ 4096` fails (the error branch is reached). -/
theorem c10_draw_memory_bounds (s : Processor) (x y n : Nat)
    (hx : x < 16) (hy : y < 16)
    (hsz : s.registers.size = 16) (hmemsz : s.memory.size = 4096)
    (hvs : VShape s.vram) (hn : 1 ≤ n) :
    (opdxyn s x y n).isSome ↔ s.i + n ≤ 4096 := by
  constructor
  · intro hsome
    by_contra hgt
    push_neg at hgt
    obtain ⟨sj, hpre, hszj, hvsj, hmj, hij⟩ := drawRows_progress x y hx hy
      (List.range' 0 (4096 - s.i)) { s with registers := s.registers.setD 15 0 }
      (by simp [hsz])
      (fun b hb => by
        have := mem_range'_bounds hb
        simp only []
        omega) hvs
    have hmj' : sj.memory = s.memory := hmj
    have hij' : sj.i = s.i := hij
    have hsplit := List.range'_append_1 0 (4096 - s.i) (n - (4096 - s.i))
    rw [Nat.zero_add] at hsplit
    rw [show n - (4096 - s.i) + (4096 - s.i) = n from by omega] at hsplit
    have hnone : opdxyn s x y n = none := by
      simp only [opdxyn, Option.bind_eq_bind,
        aset_lt (show (15 : Nat) < s.registers.size by omega), Option.some_bind]
      rw [List.range_eq_range', ← hsplit, List.foldlM_append]
      rw [hpre, Option.bind_eq_bind, Option.some_bind]
      rw [show n - (4096 - s.i) = (n - (4096 - s.i) - 1) + 1 from by omega,
        List.range'_succ, List.foldlM_cons]
      rw [drawByte_fail x y _ (4096 - s.i) hx hy hszj (by rw [hmj', hij']; omega)]
      rfl
    rw [hnone] at hsome
    simp at hsome
  · intro hle
    obtain ⟨s2, h2, _, _, _, _⟩ := drawRows_progress x y hx hy (List.range n)
      { s with registers := s.registers.setD 15 0 } (by simp [hsz])
      (fun b hb => by
        have := List.mem_range.mp hb
        simp only []
        omega) hvs
    simp only [opdxyn, Option.bind_eq_bind,
      aset_lt (show (15 : Nat) < s.registers.size by omega), Option.some_bind, h2]
    rfl

/-- C10 counterexample: for `n = 0` the instruction performs no memory read at
all, so it succeeds even though the precondition `I + n ≤ 4096` fails
(here `I = 5000`): the claim's "without that precondition an out-of-bounds
access occurs" does not hold at `n = 0`. -/
theorem c10_counterexample :
    (opdxyn { P0 with i := 5000 } 0 1 0).isSome = true ∧ ¬ (5000 + 0 ≤ 4096) := by
  constructor
  · rfl
  · decide

/-- C10 witness: the bounds equivalence at the fresh state (`I = 0`) for a
one-byte sprite. -/
theorem c10_witness : (opdxyn P0 0 1 1).isSome ↔ P0.i + 1 ≤ 4096 :=
  c10_draw_memory_bounds P0 0 1 1 (by decide) (by decide)
    (by simp [P0]) (by simp [P0]) (by decide) (by decide)

end Chip8
